import Mathlib

/-!
Verification of the Vosk model setup script (`models/setup_vosk.py`).

The script is a linear pipeline: download an archive over HTTP, extract it
into a temporary directory `vosk_model/`, copy the first extracted entry
matching `vosk-model-*` into the fixed destination
`../android/app/src/main/assets/vosk/model`, then delete the archive and the
temporary extraction directory.

The filesystem is embedded as association lists of file paths (lists of path
components) to byte contents, together with a list of existing directories;
list order models the enumeration order of directory listings.  Each step of
the script is a function from a filesystem state to either a new state or an
error carrying the state at the point of abort (an unhandled Python
exception).
-/

set_option autoImplicit false

namespace Vosk

abbrev Byte := Nat

/-- A filesystem path, as a list of components. -/
abbrev FPath := List String

/-- Strip the leading components `p` from `q`: `relTo p q = some r` iff `q = p ++ r`. -/
def relTo : FPath → FPath → Option FPath
  | [], q => some q
  | _ :: _, [] => none
  | a :: ps, b :: qs => if a = b then relTo ps qs else none

/-- `isPre p q` holds when `p` is a path-component wise initial segment of `q`. -/
def isPre (p q : FPath) : Bool := (relTo p q).isSome

/-- A filesystem state: files (path with contents, first binding wins) and
directories (membership list; first occurrence gives enumeration order). -/
structure FS where
  files : List (FPath × List Byte)
  dirs : List FPath
  deriving DecidableEq

/-- First binding of a path in a file association list. -/
def lookupF : List (FPath × List Byte) → FPath → Option (List Byte)
  | [], _ => none
  | e :: rest, p => if e.1 = p then some e.2 else lookupF rest p

def fileAt (fs : FS) (p : FPath) : Option (List Byte) := lookupF fs.files p

def isFile (fs : FS) (p : FPath) : Bool := (fileAt fs p).isSome

def isDir (fs : FS) (p : FPath) : Bool := decide (p ∈ fs.dirs)

/-- `Path.exists()`: a file or a directory is present at `p`. -/
def pexists (fs : FS) (p : FPath) : Bool := isFile fs p || isDir fs p

/-- Create or overwrite the file at `p` (new binding shadows older ones). -/
def setFile (fs : FS) (p : FPath) (c : List Byte) : FS := ⟨(p, c) :: fs.files, fs.dirs⟩

/-- Create directory `p` if missing; appended at the end of the listing order. -/
def addDir (fs : FS) (p : FPath) : FS :=
  if p ∈ fs.dirs then fs else ⟨fs.files, fs.dirs ++ [p]⟩

/-- `childOf p q = some n` when `q = p ++ [n]`, i.e. `q` names an immediate child of `p`. -/
def childOf : FPath → FPath → Option String
  | [], [n] => some n
  | a :: ps, b :: qs => if a = b then childOf ps qs else none
  | _, _ => none

/-- Deduplication keeping the first occurrence of each name: `seen` are the
names already emitted. -/
def dedupAux (seen : List String) : List String → List String
  | [] => []
  | a :: l => if a ∈ seen then dedupAux seen l else a :: dedupAux (a :: seen) l

/-- Deduplication keeping the first occurrence of each name. -/
def dedupKeepFirst (l : List String) : List String := dedupAux [] l

/-- `listStarts pat s`: the characters `pat` are an initial segment of `s`. -/
def listStarts : List Char → List Char → Bool
  | [], _ => true
  | _ :: _, [] => false
  | a :: ps, b :: qs => decide (a = b) && listStarts ps qs

/-- Matching against the fixed glob pattern `vosk-model-*`. -/
def matchesVosk (n : String) : Bool := listStarts "vosk-model-".data n.data

/-- The names listed when enumerating directory `p`: immediate child
directories first, then immediate child files, in representation order. -/
def childNames (fs : FS) (p : FPath) : List String :=
  dedupKeepFirst ((fs.dirs.filterMap (childOf p)) ++ ((fs.files.map Prod.fst).filterMap (childOf p)))

/-- The temporary extraction directory `vosk_model`. -/
def vmPath : FPath := ["vosk_model"]

/-- The temporary archive file `vosk-model.zip`. -/
def modelZipPath : FPath := ["vosk-model.zip"]

/-- `../android/app/src/main/assets/vosk`, the parent of the install path. -/
def androidAssetsPath : FPath := ["..", "android", "app", "src", "main", "assets", "vosk"]

/-- The fixed install destination `../android/app/src/main/assets/vosk/model`. -/
def destPath : FPath := androidAssetsPath ++ ["model"]

/-- `Path("vosk_model").glob("vosk-model-*")`: the names enumerated in
`vosk_model` that start with the fixed pattern, in listing order. -/
def globVoskModel (fs : FS) : List String :=
  (childNames fs vmPath).filter matchesVosk

/-- All nonempty initial segments of `p`, shortest first (ending with `p` itself). -/
def prefixChain : FPath → List FPath
  | [] => []
  | a :: p => [a] :: (prefixChain p).map (fun q => a :: q)

/-- All nonempty strict initial segments of `p`. -/
def strictChain (p : FPath) : List FPath := (prefixChain p).dropLast

/-- `open(p, 'wb')` followed by writing `c`: fails when a directory occupies `p`. -/
def writeFileOp (fs : FS) (p : FPath) (c : List Byte) : Option FS :=
  if isDir fs p then none else some (setFile fs p c)

/-- `Path(p).mkdir(parents=True, exist_ok=True)`: creates every missing
component of the chain; fails when a file occupies any component. -/
def mkdirp (fs : FS) (p : FPath) : Option FS :=
  if (prefixChain p).any (fun q => isFile fs q) then none
  else some ((prefixChain p).foldl addDir fs)

/-- Remove everything at or below `p`. -/
def removeTree (fs : FS) (p : FPath) : FS :=
  ⟨fs.files.filter (fun e => !(isPre p e.1)), fs.dirs.filter (fun d => !(isPre p d))⟩

/-- `shutil.rmtree(p)`: fails unless `p` is a directory. -/
def rmtreeOp (fs : FS) (p : FPath) : Option FS :=
  if isDir fs p then some (removeTree fs p) else none

/-- `Path(p).unlink()`: fails unless `p` is a file. -/
def unlinkOp (fs : FS) (p : FPath) : Option FS :=
  if isFile fs p then some ⟨fs.files.filter (fun e => !decide (e.1 = p)), fs.dirs⟩ else none

/-- The file entries copied by `shutil.copytree src dst`: every file under
`src`, rebased under `dst`, in source order. -/
def copiedFiles (l : List (FPath × List Byte)) (src dst : FPath) : List (FPath × List Byte) :=
  l.filterMap (fun e => (relTo src e.1).map (fun r => (dst ++ r, e.2)))

/-- `shutil.copytree(src, dst)`: requires `src` to be a directory and `dst`
to be absent with no file blocking its parent chain; creates `dst` (and
missing parents, as `os.makedirs` does) and copies the whole tree. -/
def copyTreeOp (fs : FS) (src dst : FPath) : Option FS :=
  if !(isDir fs src) then none
  else if pexists fs dst then none
  else if (strictChain dst).any (fun q => isFile fs q) then none
  else
    let fs1 := (prefixChain dst).foldl addDir fs
    some ⟨copiedFiles fs.files src dst ++ fs1.files,
          fs1.dirs ++ fs.dirs.filterMap (fun d => (relTo src d).map (fun r => dst ++ r))⟩

/-- An archive, as its member files (relative path and contents). -/
structure Zip where
  members : List (FPath × List Byte)

/-- The environment of one run: the HTTP response to the fixed GET (status,
`content-length` header, body chunks from `iter_content`) and the archive
decoder modelling `zipfile.ZipFile` (`none` = corrupted archive). -/
structure World where
  status : Nat
  contentLength : Option Nat
  chunks : List (List Byte)
  decodeZip : List Byte → Option Zip

/-- `response.raise_for_status()` raises exactly for 4xx and 5xx codes. -/
def isErrorStatus (s : Nat) : Bool := decide (400 ≤ s) && decide (s < 600)

/-- `(downloaded / total) * 100`, over exact rationals. -/
def percentOf (total downloaded : Nat) : ℚ := (downloaded : ℚ) / (total : ℚ) * 100

/-- Download loop state: (bytes written to the file, `downloaded` counter),
and the `(downloaded, percent)` progress reports printed so far. -/
abbrev DLState := (List Byte × Nat) × List (Nat × ℚ)

/-- One iteration of the download loop: an empty (keep-alive) chunk is
skipped; otherwise the chunk is written, the counter incremented, and, when
`total > 0`, a progress percentage is reported. -/
def reportFold (total : Nat) (st : DLState) (ch : List Byte) : DLState :=
  if ch = [] then st
  else
    ((st.1.1 ++ ch, st.1.2 + ch.length),
      st.2 ++ (if 0 < total then [(st.1.2 + ch.length, percentOf total (st.1.2 + ch.length))] else []))

/-- The whole download loop over the response chunks, starting from an empty
file and a zero counter. -/
def downloadTrace (total : Nat) (chunks : List (List Byte)) : DLState :=
  chunks.foldl (reportFold total) (([], 0), [])

/-- The bytes the script writes into `vosk-model.zip`: the concatenation of
the non-empty response chunks. -/
def bodyOf (w : World) : List Byte := (downloadTrace (w.contentLength.getD 0) w.chunks).1.1

/-- The unhandled exceptions that can abort the script, by site. -/
inductive MErr where
  | httpError | openFailed | badArchive | extractFailed | mkdirFailed
  | indexError | rmtreeFailed | copyFailed | unlinkFailed | cleanupFailed
  deriving DecidableEq

/-- Outcome of a step or of the whole run: final state, or error together
with the state at the point of abort. -/
inductive Res where
  | ok (fs : FS) : Res
  | err (e : MErr) (fs : FS) : Res
  deriving DecidableEq

def Res.state : Res → FS
  | .ok fs => fs
  | .err _ fs => fs

def Res.isOk : Res → Bool
  | .ok _ => true
  | .err _ _ => false

/-- `download_file(model_url, model_zip)`: raise for a 4xx/5xx status, else
stream the body into `vosk-model.zip`. -/
def stepDownload (w : World) (fs : FS) : Res :=
  if isErrorStatus w.status then .err .httpError fs
  else
    match writeFileOp fs modelZipPath (bodyOf w) with
    | none => .err .openFailed fs
    | some fs1 => .ok fs1

/-- Extraction of a single archive member into `vosk_model`, as
`ZipFile._extract_member` does: create the missing parent directories of the
target, then write the member file; fails when a file blocks the parent
chain or a directory occupies the target. -/
def extractMember (fs : FS) (m : FPath × List Byte) : Option FS :=
  if (strictChain (vmPath ++ m.1)).any (fun q => isFile fs q) then none
  else if isDir fs (vmPath ++ m.1) then none
  else some (setFile ((strictChain (vmPath ++ m.1)).foldl addDir fs) (vmPath ++ m.1) m.2)

/-- `zip_ref.extractall("vosk_model")`: extract the members in order; on
failure the members extracted so far remain. -/
def extractAll (fs : FS) : List (FPath × List Byte) → Res
  | [] => .ok fs
  | m :: rest =>
    match extractMember fs m with
    | none => .err .extractFailed fs
    | some fs1 => extractAll fs1 rest

/-- Open the downloaded archive and extract it into `vosk_model`. -/
def stepExtract (w : World) (fs : FS) : Res :=
  match fileAt fs modelZipPath with
  | none => .err .badArchive fs
  | some content =>
    match w.decodeZip content with
    | none => .err .badArchive fs
    | some z => extractAll fs z.members

/-- The tail of the install step once a model entry `name` has been chosen:
delete the destination when present, then copy `vosk_model/name` to it. -/
def installFrom (fsm : FS) (name : String) : Res :=
  match (if pexists fsm destPath then rmtreeOp fsm destPath else some fsm) with
  | none => .err .rmtreeFailed fsm
  | some fs2 =>
    match copyTreeOp fs2 (vmPath ++ [name]) destPath with
    | none => .err .copyFailed fs2
    | some fs3 => .ok fs3

/-- The install step: `mkdir(parents=True, exist_ok=True)` on the assets
directory, select `list(Path("vosk_model").glob("vosk-model-*"))[0]`
(IndexError when no entry matches), then replace the destination. -/
def stepInstall (fs : FS) : Res :=
  match mkdirp fs androidAssetsPath with
  | none => .err .mkdirFailed fs
  | some fsm =>
    match globVoskModel fsm with
    | [] => .err .indexError fsm
    | name :: _ => installFrom fsm name

/-- The cleanup step: `model_zip.unlink()` then `shutil.rmtree("vosk_model")`. -/
def stepCleanup (fs : FS) : Res :=
  match unlinkOp fs modelZipPath with
  | none => .err .unlinkFailed fs
  | some fs1 =>
    match rmtreeOp fs1 vmPath with
    | none => .err .cleanupFailed fs1
    | some fs2 => .ok fs2

/-- Sequencing: an abort propagates with the state at the abort point. -/
def andThenRes (r : Res) (f : FS → Res) : Res :=
  match r with
  | .ok fs => f fs
  | .err e fs => .err e fs

/-- The whole `main()` procedure: download, extract, install, clean up. -/
def runMain (w : World) (fs : FS) : Res :=
  andThenRes (stepDownload w fs) (fun fs1 =>
    andThenRes (stepExtract w fs1) (fun fs2 =>
      andThenRes (stepInstall fs2) (fun fs3 => stepCleanup fs3)))

/-- The empty filesystem. -/
def emptyFS : FS := ⟨[], []⟩

/-- The model entry the archive alone determines: decode the downloaded
body, extract it into an empty filesystem, and select the first matching
entry; `none` when any of these fails. -/
def installSource (w : World) : Option (String × FS) :=
  match w.decodeZip (bodyOf w) with
  | none => none
  | some z =>
    match extractAll emptyFS z.members with
    | .err _ _ => none
    | .ok fse =>
      match globVoskModel fse with
      | [] => none
      | n :: _ => some (n, fse)

/-- The file contents a run installs at `destPath ++ r`, as determined by
the archive alone. -/
def installedContent (w : World) (r : FPath) : Option (List Byte) :=
  match installSource w with
  | none => none
  | some nf => fileAt nf.2 (vmPath ++ nf.1 :: r)

/-! ### Concrete sample data for the witnesses and counterexamples -/

/-- A one-member archive with the usual single `vosk-model-*` directory. -/
def zipA : Zip := ⟨[(["vosk-model-small", "conf"], [1, 2])]⟩

/-- A successful environment serving `zipA`. -/
def wA : World := ⟨200, none, [[7, 7]], fun _ => some zipA⟩

/-- An archive whose model directory is named `vosk-model-bbb`. -/
def zipB : Zip := ⟨[(["vosk-model-bbb", "f"], [2])]⟩

/-- A successful environment serving `zipB`. -/
def wB : World := ⟨200, none, [[9]], fun _ => some zipB⟩

/-- A filesystem with a stale matching entry left inside `vosk_model`. -/
def fsB : FS := ⟨[(["vosk_model", "vosk-model-aaa", "f"], [1])],
                 [["vosk_model"], ["vosk_model", "vosk-model-aaa"]]⟩

/-- An environment whose archive decodes but has no members at all. -/
def wC : World := ⟨200, none, [[5]], fun _ => some ⟨[]⟩⟩

/-- An environment answering the GET with a 404 status. -/
def wD : World := ⟨404, none, [[5]], fun _ => some zipA⟩

/-- An environment with a known content length of 4 bytes. -/
def wE : World := ⟨200, some 4, [[0, 0], [], [0, 0]], fun _ => some zipA⟩

/-- State after the download step of a run of `wA` from the empty filesystem. -/
def dA1 : FS := (stepDownload wA emptyFS).state

/-- State after the extraction step of that run. -/
def dA2 : FS := (stepExtract wA dA1).state

/-- State after the install step of that run. -/
def dA3 : FS := (stepInstall dA2).state

/-- State after the cleanup step of that run. -/
def dA4 : FS := (stepCleanup dA3).state

/-- State after the download step of a run of `wC` from the empty filesystem. -/
def dC1 : FS := (stepDownload wC emptyFS).state

/-- State after the extraction step of that run. -/
def dC2 : FS := (stepExtract wC dC1).state

/-- State at the abort of the install step of that run. -/
def dC3 : FS := (stepInstall dC2).state

/-- End state of a first full run of `wA` from the empty filesystem. -/
def eA1 : FS := (runMain wA emptyFS).state

/-- End state of a second full run of `wA` from `eA1`. -/
def eA2 : FS := (runMain wA eA1).state

/-- A filesystem holding an extracted model and a pre-existing destination
directory with an old file, for exercising the install step alone. -/
def fsD : FS :=
  ⟨[(["vosk_model", "vosk-model-x", "f"], [3]), (destPath ++ ["old"], [9])],
   [["vosk_model"], ["vosk_model", "vosk-model-x"], destPath]⟩

/-- A filesystem whose extraction directory holds two matching entries. -/
def fsE : FS :=
  ⟨[], [["vosk_model"], ["vosk_model", "vosk-model-a"], ["vosk_model", "vosk-model-b"]]⟩

/-- `fsD` after the `mkdir` of the install step. -/
def fsDm : FS := (prefixChain androidAssetsPath).foldl addDir fsD

/-- `fsE` after the `mkdir` of the install step. -/
def fsEm : FS := (prefixChain androidAssetsPath).foldl addDir fsE

/-! ### Path lemmas -/

theorem relTo_eq_some {p q r : FPath} : relTo p q = some r ↔ q = p ++ r := by
  induction p generalizing q with
  | nil => simp [relTo]
  | cons a ps ih =>
    cases q with
    | nil => simp [relTo]
    | cons b qs =>
      by_cases hab : a = b
      · subst hab
        simp [relTo, ih]
      · simp [relTo, hab, Ne.symm hab]

theorem relTo_append (p r : FPath) : relTo p (p ++ r) = some r :=
  relTo_eq_some.mpr rfl

theorem isPre_iff {p q : FPath} : isPre p q = true ↔ ∃ r, q = p ++ r := by
  unfold isPre
  rw [Option.isSome_iff_exists]
  constructor
  · rintro ⟨r, hr⟩; exact ⟨r, relTo_eq_some.mp hr⟩
  · rintro ⟨r, hr⟩; exact ⟨r, relTo_eq_some.mpr hr⟩

theorem isPre_append (p r : FPath) : isPre p (p ++ r) = true :=
  isPre_iff.mpr ⟨r, rfl⟩

theorem isPre_refl (p : FPath) : isPre p p = true := by
  simpa using isPre_append p []

theorem isPre_head_ne {a b : String} {p q : FPath} (h : a ≠ b) :
    isPre (a :: p) (b :: q) = false := by
  simp [isPre, relTo, h]

theorem isPre_false_of_head_ne {a b : String} {p q : FPath} (ha : p.head? = some a)
    (hb : q.head? = some b) (h : a ≠ b) : isPre p q = false := by
  cases p with
  | nil => simp at ha
  | cons x xs =>
    cases q with
    | nil => simp [isPre, relTo]
    | cons y ys =>
      simp only [List.head?_cons, Option.some.injEq] at ha hb
      subst ha; subst hb
      exact isPre_head_ne h

theorem childOf_eq_some {p q : FPath} {n : String} : childOf p q = some n ↔ q = p ++ [n] := by
  induction p generalizing q with
  | nil =>
    cases q with
    | nil => simp [childOf]
    | cons b qs => cases qs <;> simp [childOf]
  | cons a ps ih =>
    cases q with
    | nil => simp [childOf]
    | cons b qs =>
      by_cases hab : a = b
      · subst hab; simp [childOf, ih]
      · simp [childOf, hab, Ne.symm hab]

theorem childOf_eq_none_of_not_pre {p q : FPath} (h : isPre p q = false) :
    childOf p q = none := by
  cases hc : childOf p q with
  | none => rfl
  | some n =>
    rw [childOf_eq_some.mp hc, isPre_append] at h
    exact absurd h (by simp)

/-! ### Prefix chain lemmas -/

theorem mem_prefixChain_head {a : String} {p q : FPath} (h : q ∈ prefixChain (a :: p)) :
    ∃ r, q = a :: r := by
  simp only [prefixChain, List.mem_cons, List.mem_map] at h
  rcases h with h | ⟨x, _, hx⟩
  · exact ⟨[], h⟩
  · exact ⟨x, hx.symm⟩

theorem mem_prefixChain_length {q p : FPath} (h : q ∈ prefixChain p) :
    q.length ≤ p.length := by
  induction p generalizing q with
  | nil => simp [prefixChain] at h
  | cons a ps ih =>
    simp only [prefixChain, List.mem_cons, List.mem_map] at h
    rcases h with h | ⟨x, hx, hxq⟩
    · subst h; simp
    · subst hxq
      simpa using ih hx

theorem mem_strictChain_chain {q p : FPath} (h : q ∈ strictChain p) : q ∈ prefixChain p :=
  List.dropLast_subset _ h

theorem strictChain_vm_pre {m q : FPath} (h : q ∈ strictChain (vmPath ++ m)) :
    isPre vmPath q = true := by
  have hq := mem_strictChain_chain h
  obtain ⟨r, hr⟩ := mem_prefixChain_head (p := m) (by simpa [vmPath] using hq)
  subst hr
  exact isPre_iff.mpr ⟨r, rfl⟩

/-! ### Lookup lemmas -/

theorem lookupF_append_some {l1 l2 : List (FPath × List Byte)} {p : FPath} {c : List Byte}
    (h : lookupF l1 p = some c) : lookupF (l1 ++ l2) p = some c := by
  induction l1 with
  | nil => simp [lookupF] at h
  | cons e rest ih =>
    by_cases he : e.1 = p
    · simpa [lookupF, he] using by simpa [lookupF, he] using h
    · rw [List.cons_append, lookupF, if_neg he]
      rw [lookupF, if_neg he] at h
      exact ih h

theorem lookupF_append_none {l1 l2 : List (FPath × List Byte)} {p : FPath}
    (h : lookupF l1 p = none) : lookupF (l1 ++ l2) p = lookupF l2 p := by
  induction l1 with
  | nil => simp [lookupF]
  | cons e rest ih =>
    by_cases he : e.1 = p
    · rw [lookupF, if_pos he] at h; exact absurd h (by simp)
    · rw [lookupF, if_neg he] at h
      rw [List.cons_append, lookupF, if_neg he]
      exact ih h

theorem lookupF_filter_keep {l : List (FPath × List Byte)} {p : FPath}
    {f : FPath × List Byte → Bool} (h : ∀ c, f (p, c) = true) :
    lookupF (l.filter f) p = lookupF l p := by
  induction l with
  | nil => simp
  | cons e rest ih =>
    by_cases he : e.1 = p
    · have : f e = true := by
        have := h e.2
        rwa [show (p, e.2) = e by rw [← he]] at this
      rw [List.filter_cons_of_pos this, lookupF, if_pos he, lookupF, if_pos he]
    · by_cases hf : f e = true
      · rw [List.filter_cons_of_pos hf, lookupF, if_neg he, lookupF, if_neg he]
        exact ih
      · rw [List.filter_cons_of_neg (by simpa using hf), lookupF, if_neg he]
        exact ih

theorem lookupF_filter_drop {l : List (FPath × List Byte)} {p : FPath}
    {f : FPath × List Byte → Bool} (h : ∀ c, f (p, c) = false) :
    lookupF (l.filter f) p = none := by
  induction l with
  | nil => simp [lookupF]
  | cons e rest ih =>
    by_cases hf : f e = true
    · rw [List.filter_cons_of_pos hf, lookupF]
      have he : e.1 ≠ p := by
        intro hep
        have := h e.2
        rw [show (p, e.2) = e by rw [← hep]] at this
        rw [this] at hf
        exact absurd hf (by simp)
      rw [if_neg he]
      exact ih
    · rw [List.filter_cons_of_neg (by simpa using hf)]
      exact ih

theorem lookupF_eq_none {l : List (FPath × List Byte)} {p : FPath}
    (h : ∀ e ∈ l, e.1 ≠ p) : lookupF l p = none := by
  induction l with
  | nil => simp [lookupF]
  | cons e rest ih =>
    rw [lookupF, if_neg (h e (by simp))]
    exact ih fun e' he' => h e' (by simp [he'])

theorem lookupF_isSome_of_mem {l : List (FPath × List Byte)} {e : FPath × List Byte}
    (h : e ∈ l) : (lookupF l e.1).isSome = true := by
  induction l with
  | nil => simp at h
  | cons x rest ih =>
    rw [lookupF]
    by_cases hx : x.1 = e.1
    · simp [hx]
    · rw [if_neg hx]
      rcases List.mem_cons.mp h with h | h
      · exact absurd (h ▸ rfl) hx
      · exact ih h

theorem lookupF_copied {l : List (FPath × List Byte)} (src dst r : FPath) :
    lookupF (copiedFiles l src dst) (dst ++ r) = lookupF l (src ++ r) := by
  induction l with
  | nil => simp [copiedFiles, lookupF]
  | cons e rest ih =>
    rw [copiedFiles, List.filterMap_cons]
    cases hrel : relTo src e.1 with
    | none =>
      have he : e.1 ≠ src ++ r := by
        intro h
        rw [h, relTo_append] at hrel
        exact absurd hrel (by simp)
      rw [lookupF, if_neg he]
      exact ih
    | some x =>
      have he : e.1 = src ++ x := relTo_eq_some.mp hrel
      simp only [Option.map_some']
      by_cases hxr : x = r
      · subst hxr
        simp [lookupF, he]
      · have h1 : (dst ++ x) ≠ dst ++ r := fun h => hxr (List.append_cancel_left h)
        have h2 : e.1 ≠ src ++ r := by
          rw [he]; exact fun h => hxr (List.append_cancel_left h)
        rw [lookupF, if_neg h1, lookupF, if_neg h2]
        exact ih

theorem lookupF_copied_out {l : List (FPath × List Byte)} {src dst p : FPath}
    (h : isPre dst p = false) : lookupF (copiedFiles l src dst) p = none := by
  apply lookupF_eq_none
  intro e he
  simp only [copiedFiles, List.mem_filterMap] at he
  obtain ⟨x, _, hx⟩ := he
  cases hrel : relTo src x.1 with
  | none => rw [hrel] at hx; exact absurd hx (by simp)
  | some y =>
    rw [hrel] at hx
    simp only [Option.map_some', Option.some.injEq] at hx
    intro hep
    rw [← hx] at hep
    rw [← hep, isPre_append] at h
    exact absurd h (by simp)

/-! ### Basic operation lemmas -/

theorem fileAt_setFile_self (fs : FS) (p : FPath) (c : List Byte) :
    fileAt (setFile fs p c) p = some c := by
  simp [fileAt, setFile, lookupF]

theorem fileAt_setFile_ne (fs : FS) (p : FPath) (c : List Byte) {q : FPath} (h : q ≠ p) :
    fileAt (setFile fs p c) q = fileAt fs q := by
  simp [fileAt, setFile, lookupF, Ne.symm h]

theorem isDir_setFile (fs : FS) (p : FPath) (c : List Byte) (q : FPath) :
    isDir (setFile fs p c) q = isDir fs q := rfl

theorem files_addDir (fs : FS) (d : FPath) : (addDir fs d).files = fs.files := by
  unfold addDir
  split <;> rfl

theorem isDir_addDir (fs : FS) (d p : FPath) :
    isDir (addDir fs d) p = (isDir fs p || decide (p = d)) := by
  unfold addDir isDir
  by_cases hd : d ∈ fs.dirs
  · rw [if_pos hd]
    by_cases hp : p = d
    · subst hp; simp [hd]
    · simp [hp]
  · rw [if_neg hd]
    simp [List.mem_append]

theorem files_foldl_addDir (fs : FS) (ds : List FPath) :
    (ds.foldl addDir fs).files = fs.files := by
  induction ds generalizing fs with
  | nil => rfl
  | cons d rest ih => rw [List.foldl_cons, ih, files_addDir]

theorem fileAt_foldl_addDir (fs : FS) (ds : List FPath) (p : FPath) :
    fileAt (ds.foldl addDir fs) p = fileAt fs p := by
  unfold fileAt
  rw [files_foldl_addDir]

theorem isDir_foldl_addDir (fs : FS) (ds : List FPath) (p : FPath) :
    isDir (ds.foldl addDir fs) p = (isDir fs p || decide (p ∈ ds)) := by
  induction ds generalizing fs with
  | nil => simp
  | cons d rest ih =>
    rw [List.foldl_cons, ih, isDir_addDir]
    by_cases hp : p = d <;> simp [hp, List.mem_cons]

theorem dirs_filterMap_addDir {f : FPath → Option String} (fs : FS) {d : FPath}
    (h : f d = none) : (addDir fs d).dirs.filterMap f = fs.dirs.filterMap f := by
  unfold addDir
  split
  · rfl
  · simp [List.filterMap_append, h]

theorem dirs_filterMap_foldl_addDir {f : FPath → Option String} (fs : FS) {ds : List FPath}
    (h : ∀ d ∈ ds, f d = none) :
    (ds.foldl addDir fs).dirs.filterMap f = fs.dirs.filterMap f := by
  induction ds generalizing fs with
  | nil => rfl
  | cons d rest ih =>
    rw [List.foldl_cons, ih (addDir fs d) fun x hx => h x (by simp [hx]),
      dirs_filterMap_addDir fs (h d (by simp))]

theorem removeTree_fileAt_out {fs : FS} {p q : FPath} (h : isPre p q = false) :
    fileAt (removeTree fs p) q = fileAt fs q := by
  unfold removeTree fileAt
  exact lookupF_filter_keep fun c => by simp [h]

theorem removeTree_fileAt_in {fs : FS} {p q : FPath} (h : isPre p q = true) :
    fileAt (removeTree fs p) q = none := by
  unfold removeTree fileAt
  exact lookupF_filter_drop fun c => by simp [h]

theorem removeTree_isDir_out {fs : FS} {p q : FPath} (h : isPre p q = false) :
    isDir (removeTree fs p) q = isDir fs q := by
  unfold removeTree isDir
  by_cases hq : q ∈ fs.dirs
  · simp [List.mem_filter, hq, h]
  · simp [List.mem_filter, hq]

theorem removeTree_isDir_in {fs : FS} {p q : FPath} (h : isPre p q = true) :
    isDir (removeTree fs p) q = false := by
  unfold removeTree isDir
  simp [List.mem_filter, h]

theorem rmtreeOp_some {fs fs' : FS} {p : FPath} (h : rmtreeOp fs p = some fs') :
    isDir fs p = true ∧ fs' = removeTree fs p := by
  unfold rmtreeOp at h
  split at h
  · exact ⟨by assumption, by injection h with h2; exact h2.symm⟩
  · exact absurd h (by simp)

theorem unlinkOp_some {fs fs' : FS} {p : FPath} (h : unlinkOp fs p = some fs') :
    isFile fs p = true ∧
      fs' = ⟨fs.files.filter (fun e => !decide (e.1 = p)), fs.dirs⟩ := by
  unfold unlinkOp at h
  split at h
  · exact ⟨by assumption, by injection h with h2; exact h2.symm⟩
  · exact absurd h (by simp)

theorem unlink_fileAt_self {fs fs' : FS} {p : FPath} (h : unlinkOp fs p = some fs') :
    fileAt fs' p = none := by
  rw [(unlinkOp_some h).2]
  exact lookupF_filter_drop fun c => by simp

theorem unlink_fileAt_ne {fs fs' : FS} {p : FPath} (h : unlinkOp fs p = some fs')
    {q : FPath} (hq : q ≠ p) : fileAt fs' q = fileAt fs q := by
  rw [(unlinkOp_some h).2]
  exact lookupF_filter_keep fun c => by simp [hq]

theorem unlink_isDir {fs fs' : FS} {p : FPath} (h : unlinkOp fs p = some fs') (q : FPath) :
    isDir fs' q = isDir fs q := by
  rw [(unlinkOp_some h).2]
  rfl

theorem mkdirp_some {fs fs' : FS} {p : FPath} (h : mkdirp fs p = some fs') :
    fs' = (prefixChain p).foldl addDir fs := by
  unfold mkdirp at h
  split at h
  · exact absurd h (by simp)
  · injection h with h2; exact h2.symm

theorem mkdirp_fileAt {fs fs' : FS} {p : FPath} (h : mkdirp fs p = some fs') (q : FPath) :
    fileAt fs' q = fileAt fs q := by
  rw [mkdirp_some h]
  exact fileAt_foldl_addDir fs _ q

theorem mkdirp_isDir {fs fs' : FS} {p : FPath} (h : mkdirp fs p = some fs') (q : FPath) :
    isDir fs' q = (isDir fs q || decide (q ∈ prefixChain p)) := by
  rw [mkdirp_some h]
  exact isDir_foldl_addDir fs _ q

/-! ### copytree lemmas -/

theorem copyTreeOp_some {fs fs' : FS} {src dst : FPath} (h : copyTreeOp fs src dst = some fs') :
    isDir fs src = true ∧ pexists fs dst = false ∧
      fs' = ⟨copiedFiles fs.files src dst ++ fs.files,
             ((prefixChain dst).foldl addDir fs).dirs ++
               fs.dirs.filterMap (fun d => (relTo src d).map (fun r => dst ++ r))⟩ := by
  unfold copyTreeOp at h
  by_cases h1 : (!isDir fs src) = true
  · rw [if_pos h1] at h; exact absurd h (by simp)
  · rw [if_neg h1] at h
    by_cases h2 : pexists fs dst = true
    · rw [if_pos h2] at h; exact absurd h (by simp)
    · rw [if_neg h2] at h
      by_cases h3 : ((strictChain dst).any fun q => isFile fs q) = true
      · rw [if_pos h3] at h; exact absurd h (by simp)
      · rw [if_neg h3] at h
        refine ⟨by simpa using h1, by simpa using h2, ?_⟩
        injection h with h4
        rw [← h4]
        have hfe : ((prefixChain dst).foldl addDir fs).files = fs.files := files_foldl_addDir fs _
        simp [hfe]

theorem copyTree_fileAt_dst {fs fs' : FS} {src dst : FPath}
    (h : copyTreeOp fs src dst = some fs') (r : FPath) :
    fileAt fs' (dst ++ r) =
      match fileAt fs (src ++ r) with
      | some c => some c
      | none => fileAt fs (dst ++ r) := by
  rw [(copyTreeOp_some h).2.2]
  show lookupF (copiedFiles fs.files src dst ++ fs.files) (dst ++ r) = _
  cases hsrc : fileAt fs (src ++ r) with
  | some c =>
    exact lookupF_append_some ((lookupF_copied src dst r).trans hsrc)
  | none =>
    rw [lookupF_append_none ((lookupF_copied src dst r).trans hsrc)]
    rfl

theorem copyTree_fileAt_out {fs fs' : FS} {src dst : FPath}
    (h : copyTreeOp fs src dst = some fs') {p : FPath} (hp : isPre dst p = false) :
    fileAt fs' p = fileAt fs p := by
  rw [(copyTreeOp_some h).2.2]
  show lookupF (copiedFiles fs.files src dst ++ fs.files) p = _
  rw [lookupF_append_none (lookupF_copied_out hp)]
  rfl

theorem mem_prefixChain_self {p : FPath} (h : p ≠ []) : p ∈ prefixChain p := by
  induction p with
  | nil => exact absurd rfl h
  | cons a t ih =>
    simp only [prefixChain, List.mem_cons, List.mem_map]
    cases t with
    | nil => left; rfl
    | cons b t2 =>
      right
      exact ⟨b :: t2, ih (by simp), rfl⟩

theorem copyTree_isDir_dst {fs fs' : FS} {src dst : FPath} (hd : dst ≠ [])
    (h : copyTreeOp fs src dst = some fs') : isDir fs' dst = true := by
  rw [(copyTreeOp_some h).2.2]
  unfold isDir
  simp only [List.mem_append, decide_eq_true_eq]
  left
  have h2 : decide (dst ∈ prefixChain dst) = true := by simpa using mem_prefixChain_self hd
  have h3 := isDir_foldl_addDir fs (prefixChain dst) dst
  rw [h2] at h3
  simp only [Bool.or_true] at h3
  unfold isDir at h3
  exact decide_eq_true_eq.mp h3

theorem copyTree_isDir_mono {fs fs' : FS} {src dst : FPath}
    (h : copyTreeOp fs src dst = some fs') {q : FPath} (hq : isDir fs q = true) :
    isDir fs' q = true := by
  rw [(copyTreeOp_some h).2.2]
  unfold isDir
  simp only [List.mem_append, decide_eq_true_eq]
  left
  have h3 := isDir_foldl_addDir fs (prefixChain dst) q
  rw [hq] at h3
  simp only [Bool.true_or] at h3
  unfold isDir at h3
  exact decide_eq_true_eq.mp h3

theorem copyTree_isDir_out {fs fs' : FS} {src dst : FPath}
    (h : copyTreeOp fs src dst = some fs') {q : FPath} (hq : isPre dst q = false)
    (hq2 : q ∉ prefixChain dst) : isDir fs' q = isDir fs q := by
  rw [(copyTreeOp_some h).2.2]
  unfold isDir
  simp only [List.mem_append, decide_eq_true_eq]
  have h3 := isDir_foldl_addDir fs (prefixChain dst) q
  have h4 : decide (q ∈ prefixChain dst) = false := by simpa using hq2
  rw [h4] at h3
  simp only [Bool.or_false] at h3
  have h5 : q ∉ fs.dirs.filterMap (fun d => (relTo src d).map (fun r => dst ++ r)) := by
    intro hmem
    obtain ⟨d, _, hd⟩ := List.mem_filterMap.mp hmem
    cases hrel : relTo src d with
    | none => rw [hrel] at hd; exact absurd hd (by simp)
    | some y =>
      rw [hrel] at hd
      simp only [Option.map_some', Option.some.injEq] at hd
      rw [← hd, isPre_append] at hq
      exact absurd hq (by simp)
  by_cases hdq : q ∈ fs.dirs
  · have : isDir ((prefixChain dst).foldl addDir fs) q = true := by
      rw [h3]; unfold isDir; simpa using hdq
    unfold isDir at this
    simp [decide_eq_true_eq.mp this, hdq]
  · have : isDir ((prefixChain dst).foldl addDir fs) q = false := by
      rw [h3]; unfold isDir; simpa using hdq
    unfold isDir at this
    simp only [decide_eq_false_iff_not] at this
    simp [this, hdq, h5]

/-! ### Concrete path facts -/

theorem head_ne_ne {a b : String} {p q : FPath} (h : a ≠ b) : (a :: p : FPath) ≠ b :: q := by
  simp [h]

theorem isPre_vm_dest (r : FPath) : isPre vmPath (destPath ++ r) = false :=
  isPre_head_ne (by decide)

theorem isPre_dest_vm (x : FPath) : isPre destPath (vmPath ++ x) = false :=
  isPre_head_ne (by decide)

theorem isPre_vm_zip : isPre vmPath modelZipPath = false := by decide

theorem isPre_dest_zip : isPre destPath modelZipPath = false := by decide

theorem dest_ne_zip (r : FPath) : destPath ++ r ≠ modelZipPath :=
  head_ne_ne (by decide)

theorem vm_ne_zip (x : FPath) : vmPath ++ x ≠ modelZipPath :=
  head_ne_ne (by decide)

theorem assets_chain_head {d : FPath} (hd : d ∈ prefixChain androidAssetsPath) :
    ∃ r, d = ".." :: r :=
  mem_prefixChain_head hd

theorem chain_childOf_none {d : FPath} (hd : d ∈ prefixChain androidAssetsPath) :
    childOf vmPath d = none := by
  obtain ⟨r, hr⟩ := assets_chain_head hd
  subst hr
  exact childOf_eq_none_of_not_pre (isPre_head_ne (by decide))

theorem chain_not_vm {d : FPath} (hd : d ∈ prefixChain androidAssetsPath) :
    isPre vmPath d = false := by
  obtain ⟨r, hr⟩ := assets_chain_head hd
  subst hr
  exact isPre_head_ne (by decide)

theorem chain_ne_dest {q : FPath} (hq : q ∈ prefixChain androidAssetsPath) (r : FPath) :
    q ≠ destPath ++ r := by
  intro h
  have h1 := mem_prefixChain_length hq
  rw [h] at h1
  simp [destPath, androidAssetsPath] at h1

theorem dest_cone_not_in_chain (r : FPath) : destPath ++ r ∉ prefixChain androidAssetsPath :=
  fun hmem => chain_ne_dest hmem r rfl

/-! ### Extraction lemmas -/

theorem extractMember_some_pres {fs fs' : FS} {m : FPath × List Byte}
    (h : extractMember fs m = some fs') {p : FPath} (hp : isPre vmPath p = false) :
    fileAt fs' p = fileAt fs p ∧ isDir fs' p = isDir fs p := by
  unfold extractMember at h
  by_cases h1 : ((strictChain (vmPath ++ m.1)).any fun q => isFile fs q) = true
  · rw [if_pos h1] at h; exact absurd h (by simp)
  · rw [if_neg h1] at h
    by_cases h2 : isDir fs (vmPath ++ m.1) = true
    · rw [if_pos h2] at h; exact absurd h (by simp)
    · rw [if_neg h2] at h
      injection h with h3
      rw [← h3]
      have hne : p ≠ vmPath ++ m.1 := by
        intro hpe
        rw [hpe, isPre_append] at hp
        exact absurd hp (by simp)
      have hnotin : decide (p ∈ strictChain (vmPath ++ m.1)) = false := by
        simp only [decide_eq_false_iff_not]
        intro hmem
        rw [strictChain_vm_pre hmem] at hp
        exact absurd hp (by simp)
      constructor
      · rw [fileAt_setFile_ne _ _ _ hne, fileAt_foldl_addDir]
      · rw [isDir_setFile, isDir_foldl_addDir, hnotin, Bool.or_false]

theorem extractAll_state_pres (ms : List (FPath × List Byte)) (fs : FS) {p : FPath}
    (hp : isPre vmPath p = false) :
    fileAt (extractAll fs ms).state p = fileAt fs p ∧
      isDir (extractAll fs ms).state p = isDir fs p := by
  induction ms generalizing fs with
  | nil => exact ⟨rfl, rfl⟩
  | cons m rest ih =>
    rw [extractAll]
    cases hm : extractMember fs m with
    | none => exact ⟨rfl, rfl⟩
    | some fs1 =>
      have h1 := extractMember_some_pres hm hp
      have h2 := ih fs1
      exact ⟨h2.1.trans h1.1, h2.2.trans h1.2⟩

/-! ### Step decomposition lemmas -/

theorem stepDownload_ok {w : World} {fs fs1 : FS} (h : stepDownload w fs = .ok fs1) :
    isErrorStatus w.status = false ∧ isDir fs modelZipPath = false ∧
      fs1 = setFile fs modelZipPath (bodyOf w) := by
  unfold stepDownload at h
  by_cases h1 : isErrorStatus w.status = true
  · rw [if_pos h1] at h; exact Res.noConfusion h
  · rw [if_neg h1] at h
    unfold writeFileOp at h
    by_cases h2 : isDir fs modelZipPath = true
    · rw [if_pos h2] at h; exact Res.noConfusion h
    · rw [if_neg h2] at h
      injection h with h3
      exact ⟨by simpa using h1, by simpa using h2, h3.symm⟩

theorem stepExtract_ok {w : World} {fs fs2 : FS} (h : stepExtract w fs = .ok fs2) :
    ∃ content z, fileAt fs modelZipPath = some content ∧ w.decodeZip content = some z ∧
      extractAll fs z.members = .ok fs2 := by
  unfold stepExtract at h
  cases hc : fileAt fs modelZipPath with
  | none => rw [hc] at h; exact Res.noConfusion h
  | some content =>
    rw [hc] at h
    have h2 : (match w.decodeZip content with
        | none => Res.err MErr.badArchive fs
        | some z => extractAll fs z.members) = Res.ok fs2 := h
    cases hz : w.decodeZip content with
    | none => rw [hz] at h2; exact Res.noConfusion h2
    | some z =>
      rw [hz] at h2
      exact ⟨content, z, rfl, hz, h2⟩

theorem stepInstall_ok {fs fs3 : FS} (h : stepInstall fs = .ok fs3) :
    ∃ fsm name rest fsr, mkdirp fs androidAssetsPath = some fsm ∧
      globVoskModel fsm = name :: rest ∧
      (if pexists fsm destPath then rmtreeOp fsm destPath else some fsm) = some fsr ∧
      copyTreeOp fsr (vmPath ++ [name]) destPath = some fs3 := by
  unfold stepInstall at h
  cases hm : mkdirp fs androidAssetsPath with
  | none => rw [hm] at h; exact Res.noConfusion h
  | some fsm =>
    rw [hm] at h
    have h5 : (match globVoskModel fsm with
        | [] => Res.err MErr.indexError fsm
        | name :: _ => installFrom fsm name) = Res.ok fs3 := h
    cases hg : globVoskModel fsm with
    | nil => rw [hg] at h5; exact Res.noConfusion h5
    | cons name rest =>
      rw [hg] at h5
      have h : installFrom fsm name = Res.ok fs3 := h5
      unfold installFrom at h
      cases hr : (if pexists fsm destPath then rmtreeOp fsm destPath else some fsm) with
      | none => rw [hr] at h; exact Res.noConfusion h
      | some fsr =>
        rw [hr] at h
        have h6 : (match copyTreeOp fsr (vmPath ++ [name]) destPath with
            | none => Res.err MErr.copyFailed fsr
            | some fsy => Res.ok fsy) = Res.ok fs3 := h
        cases hc : copyTreeOp fsr (vmPath ++ [name]) destPath with
        | none => rw [hc] at h6; exact Res.noConfusion h6
        | some fs3x =>
          rw [hc] at h6
          injection h6 with h4
          exact ⟨fsm, name, rest, fsr, rfl, hg, hr, by rw [hc, h4]⟩

theorem stepCleanup_ok {fs fs4 : FS} (h : stepCleanup fs = .ok fs4) :
    ∃ fsu, unlinkOp fs modelZipPath = some fsu ∧ rmtreeOp fsu vmPath = some fs4 := by
  unfold stepCleanup at h
  cases hu : unlinkOp fs modelZipPath with
  | none => rw [hu] at h; exact Res.noConfusion h
  | some fsu =>
    rw [hu] at h
    have h5 : (match rmtreeOp fsu vmPath with
        | none => Res.err MErr.cleanupFailed fsu
        | some fs2 => Res.ok fs2) = Res.ok fs4 := h
    cases hr : rmtreeOp fsu vmPath with
    | none => rw [hr] at h5; exact Res.noConfusion h5
    | some fs4x =>
      rw [hr] at h5
      injection h5 with h4
      exact ⟨fsu, rfl, by rw [hr, h4]⟩

theorem runMain_steps {w : World} {fs fs1 fs2 fs3 : FS}
    (h1 : stepDownload w fs = .ok fs1) (h2 : stepExtract w fs1 = .ok fs2)
    (h3 : stepInstall fs2 = .ok fs3) :
    runMain w fs = stepCleanup fs3 := by
  simp only [runMain, h1, h2, h3, andThenRes]

theorem runMain_err_download {w : World} {fs fs' : FS} {e : MErr}
    (h : stepDownload w fs = .err e fs') : runMain w fs = .err e fs' := by
  simp only [runMain, h, andThenRes]

theorem runMain_err_extract {w : World} {fs fs1 fs' : FS} {e : MErr}
    (h1 : stepDownload w fs = .ok fs1) (h : stepExtract w fs1 = .err e fs') :
    runMain w fs = .err e fs' := by
  simp only [runMain, h1, h, andThenRes]

theorem runMain_err_install {w : World} {fs fs1 fs2 fs' : FS} {e : MErr}
    (h1 : stepDownload w fs = .ok fs1) (h2 : stepExtract w fs1 = .ok fs2)
    (h : stepInstall fs2 = .err e fs') : runMain w fs = .err e fs' := by
  simp only [runMain, h1, h2, h, andThenRes]

/-! ### Stability of the directory listing under the install mkdir -/

theorem glob_mkdirp {fs fsm : FS} (h : mkdirp fs androidAssetsPath = some fsm) :
    globVoskModel fsm = globVoskModel fs := by
  unfold globVoskModel childNames
  rw [mkdirp_some h, files_foldl_addDir,
    dirs_filterMap_foldl_addDir fs fun d hd => chain_childOf_none hd]

/-! ### Download loop lemmas -/

theorem reports_percent (total : Nat) (cs : List (List Byte)) (st : DLState)
    (h : ∀ pr ∈ st.2, pr.2 = percentOf total pr.1) :
    ∀ pr ∈ (cs.foldl (reportFold total) st).2, pr.2 = percentOf total pr.1 := by
  induction cs generalizing st with
  | nil => exact h
  | cons c rest ih =>
    rw [List.foldl_cons]
    apply ih
    unfold reportFold
    by_cases hc : c = []
    · rw [if_pos hc]; exact h
    · rw [if_neg hc]
      intro pr hpr
      simp only [List.mem_append] at hpr
      rcases hpr with hpr | hpr
      · exact h pr hpr
      · by_cases ht : 0 < total
        · rw [if_pos ht] at hpr
          simp only [List.mem_singleton] at hpr
          subst hpr
          rfl
        · rw [if_neg ht] at hpr
          simp at hpr

theorem reports_empty_of_total_zero (cs : List (List Byte)) (st : DLState) :
    (cs.foldl (reportFold 0) st).2 = st.2 := by
  induction cs generalizing st with
  | nil => rfl
  | cons c rest ih =>
    rw [List.foldl_cons, ih]
    unfold reportFold
    by_cases hc : c = []
    · rw [if_pos hc]
    · rw [if_neg hc]
      simp

theorem percentOf_eq_100 {t d : Nat} (ht : 0 < t) : percentOf t d = 100 ↔ d = t := by
  unfold percentOf
  have ht' : (t : ℚ) ≠ 0 := Nat.cast_ne_zero.mpr (Nat.pos_iff_ne_zero.mp ht)
  rw [div_mul_eq_mul_div, div_eq_iff ht']
  constructor
  · intro h
    have hdt : (d : ℚ) = (t : ℚ) := by linarith
    exact_mod_cast hdt
  · intro h; subst h; ring

theorem percentOf_lt_100 {t d : Nat} (ht : 0 < t) (h : d < t) : percentOf t d < 100 := by
  unfold percentOf
  have ht' : (0 : ℚ) < t := by exact_mod_cast ht
  have hd : (d : ℚ) < t := by exact_mod_cast h
  have h1 : (d : ℚ) / t < 1 := (div_lt_one ht').mpr hd
  nlinarith

/-! ### Claim theorems -/

/-- C2: if the HTTP GET returns an error status, the whole run aborts at once
with the HTTP error and an unchanged filesystem, so in particular nothing at
or below the destination path is created or modified. -/
theorem c2_http_error_aborts (w : World) (fs : FS) (h : isErrorStatus w.status = true) :
    runMain w fs = .err .httpError fs ∧
    (∀ r, fileAt (runMain w fs).state (destPath ++ r) = fileAt fs (destPath ++ r) ∧
      isDir (runMain w fs).state (destPath ++ r) = isDir fs (destPath ++ r)) := by
  have hd : stepDownload w fs = .err .httpError fs := by
    unfold stepDownload
    rw [if_pos h]
  have hr := runMain_err_download hd
  refine ⟨hr, fun r => ?_⟩
  rw [hr]
  exact ⟨rfl, rfl⟩

/-- C2 witness: a 404 response aborts the run from the empty filesystem. -/
theorem c2_http_error_aborts_witness :
    isErrorStatus wD.status = true ∧ runMain wD emptyFS = .err .httpError emptyFS :=
  ⟨by decide, (c2_http_error_aborts wD emptyFS (by decide)).1⟩

/-- C5: whenever the directory listing of the extraction directory (after the
`mkdir` of the install step) has at least one entry matching `vosk-model-*`,
the install step proceeds with exactly the first match of the enumeration,
whatever further matches exist. -/
theorem c5_first_match_selected (fs fsm : FS) (name : String) (rest : List String)
    (hm : mkdirp fs androidAssetsPath = some fsm) (hg : globVoskModel fsm = name :: rest) :
    stepInstall fs = installFrom fsm name := by
  simp only [stepInstall, hm, hg]

/-- C5 witness: with two matching entries `vosk-model-a` and `vosk-model-b`
present, the install step uses the first one. -/
theorem c5_first_match_selected_witness :
    mkdirp fsE androidAssetsPath = some fsEm ∧
      globVoskModel fsEm = ["vosk-model-a", "vosk-model-b"] ∧
      stepInstall fsE = installFrom fsEm "vosk-model-a" :=
  ⟨by decide, by decide,
    c5_first_match_selected fsE fsEm "vosk-model-a" ["vosk-model-b"] (by decide) (by decide)⟩

/-- C7: when the content-length header is present and positive, a progress
report of exactly 100 percent is printed precisely for a byte count equal to
the declared length (and a smaller byte count reports strictly less than
100); when the header is absent, no percentage is ever computed. -/
theorem c7_progress_percent (w : World) (t : Nat) :
    (w.contentLength = some t → 0 < t →
      ∀ pr ∈ (downloadTrace (w.contentLength.getD 0) w.chunks).2,
        (pr.2 = 100 ↔ pr.1 = t) ∧ (pr.1 < t → pr.2 < 100)) ∧
    (w.contentLength = none → (downloadTrace (w.contentLength.getD 0) w.chunks).2 = []) := by
  constructor
  · intro hcl ht pr hpr
    rw [hcl] at hpr
    simp only [Option.getD_some] at hpr
    have hp := reports_percent t w.chunks (([], 0), []) (by intro x hx; simp at hx) pr hpr
    rw [hp]
    exact ⟨percentOf_eq_100 ht, percentOf_lt_100 ht⟩
  · intro hcl
    rw [hcl]
    exact reports_empty_of_total_zero w.chunks (([], 0), [])

/-- C7 witness: with a declared length of 4 bytes and chunks of 2+2 bytes,
the second report is at 100 percent for byte count 4, and the first one, at
byte count 2, is below 100. -/
theorem c7_progress_percent_witness :
    wE.contentLength = some 4 ∧
      ((2 : Nat), (50 : ℚ)) ∈ (downloadTrace (wE.contentLength.getD 0) wE.chunks).2 ∧
      ((4 : Nat), (100 : ℚ)) ∈ (downloadTrace (wE.contentLength.getD 0) wE.chunks).2 ∧
      (((4 : Nat), (100 : ℚ)).2 = 100 ↔ ((4 : Nat), (100 : ℚ)).1 = 4) ∧
      (((2 : Nat), (50 : ℚ)).1 < 4 → ((2 : Nat), (50 : ℚ)).2 < 100) := by
  have hm2 : ((2 : Nat), (50 : ℚ)) ∈ (downloadTrace (wE.contentLength.getD 0) wE.chunks).2 := by
    simp [downloadTrace, wE, reportFold, percentOf]
    norm_num
  have hm4 : ((4 : Nat), (100 : ℚ)) ∈ (downloadTrace (wE.contentLength.getD 0) wE.chunks).2 := by
    simp [downloadTrace, wE, reportFold, percentOf]
  exact ⟨rfl, hm2, hm4,
    ((c7_progress_percent wE 4).1 rfl (by decide) _ hm4).1,
    ((c7_progress_percent wE 4).1 rfl (by decide) _ hm2).2⟩

/-- C10: throughout the download loop the `downloaded` counter equals the
number of bytes written to the file so far (for every chunk list, hence at
every intermediate point of the loop), and an empty keep-alive chunk leaves
the loop state entirely unchanged. -/
theorem c10_counter_matches_bytes (total : Nat) (chunks : List (List Byte)) :
    (downloadTrace total chunks).1.2 = (downloadTrace total chunks).1.1.length ∧
      downloadTrace total (chunks ++ [[]]) = downloadTrace total chunks := by
  constructor
  · have key : ∀ (cs : List (List Byte)) (st : DLState), st.1.2 = st.1.1.length →
        (cs.foldl (reportFold total) st).1.2 = (cs.foldl (reportFold total) st).1.1.length := by
      intro cs
      induction cs with
      | nil => intro st h; exact h
      | cons c rest ih =>
        intro st h
        rw [List.foldl_cons]
        apply ih
        unfold reportFold
        by_cases hc : c = []
        · rw [if_pos hc]; exact h
        · rw [if_neg hc]
          simp [h]
    exact key chunks (([], 0), []) rfl
  · unfold downloadTrace
    rw [List.foldl_append, List.foldl_cons, List.foldl_nil]
    unfold reportFold
    rw [if_pos rfl]

theorem dest_not_in_chain : destPath ∉ prefixChain androidAssetsPath := by
  simpa using dest_cone_not_in_chain []

theorem dest_ne_nil : destPath ≠ [] := by decide

/-- C9: when no entry of the extraction directory matches `vosk-model-*`, the
selection `[0]` aborts the run with an index error right after the `mkdir`,
before the destination is read, deleted or written: everything at or below
the destination path is exactly as in the initial state. -/
theorem c9_no_match_index_error (w : World) (fs fs1 fs2 fsm : FS)
    (h1 : stepDownload w fs = .ok fs1) (h2 : stepExtract w fs1 = .ok fs2)
    (hm : mkdirp fs2 androidAssetsPath = some fsm) (hg : globVoskModel fsm = []) :
    runMain w fs = .err .indexError fsm ∧
    (∀ r, fileAt fsm (destPath ++ r) = fileAt fs (destPath ++ r) ∧
      isDir fsm (destPath ++ r) = isDir fs (destPath ++ r)) := by
  have hinst : stepInstall fs2 = .err .indexError fsm := by
    simp only [stepInstall, hm, hg]
  refine ⟨runMain_err_install h1 h2 hinst, fun r => ?_⟩
  obtain ⟨hs, hzdir, hfs1⟩ := stepDownload_ok h1
  obtain ⟨content, z, hc, hz, hext⟩ := stepExtract_ok h2
  have p1f : fileAt fs1 (destPath ++ r) = fileAt fs (destPath ++ r) := by
    rw [hfs1]; exact fileAt_setFile_ne _ _ _ (dest_ne_zip r)
  have p1d : isDir fs1 (destPath ++ r) = isDir fs (destPath ++ r) := by
    rw [hfs1]; rfl
  have p2 := extractAll_state_pres z.members fs1 (isPre_vm_dest r)
  rw [hext] at p2
  have p3f := mkdirp_fileAt hm (destPath ++ r)
  have p3d := mkdirp_isDir hm (destPath ++ r)
  have hnotin : decide (destPath ++ r ∈ prefixChain androidAssetsPath) = false := by
    simpa using dest_cone_not_in_chain r
  rw [hnotin, Bool.or_false] at p3d
  exact ⟨p3f.trans (p2.1.trans p1f), p3d.trans (p2.2.trans p1d)⟩

/-- C9 witness: an archive with no members leaves the extraction directory
empty, the run aborts with the index error, and the destination path is
still absent. -/
theorem c9_no_match_index_error_witness :
    stepDownload wC emptyFS = .ok dC1 ∧ stepExtract wC dC1 = .ok dC2 ∧
      mkdirp dC2 androidAssetsPath = some dC3 ∧ globVoskModel dC3 = [] ∧
      runMain wC emptyFS = .err .indexError dC3 ∧
      fileAt dC3 (destPath ++ []) = fileAt emptyFS (destPath ++ []) := by
  refine ⟨by decide, by decide, by decide, by decide, ?_, ?_⟩
  · exact (c9_no_match_index_error wC emptyFS dC1 dC2 dC3
      (by decide) (by decide) (by decide) (by decide)).1
  · exact ((c9_no_match_index_error wC emptyFS dC1 dC2 dC3
      (by decide) (by decide) (by decide) (by decide)).2 []).1

/-- C4: when a directory already exists at the fixed install path, a
successful install step deletes it entirely and the resulting destination
holds exactly the files of the selected extracted entry: file for file, the
destination content equals the content under `vosk_model/<first match>`,
with nothing left of the old destination. -/
theorem c4_full_overwrite (fs fs' : FS) (name : String) (rest : List String)
    (hdir : isDir fs destPath = true) (hi : stepInstall fs = .ok fs')
    (hg : globVoskModel fs = name :: rest) :
    (∀ r, fileAt fs' (destPath ++ r) = fileAt fs (vmPath ++ name :: r)) ∧
      isDir fs' destPath = true := by
  obtain ⟨fsm, name', rest', fsr, hm, hg', hr, hc⟩ := stepInstall_ok hi
  have hgm : globVoskModel fsm = globVoskModel fs := glob_mkdirp hm
  rw [hg, hg'] at hgm
  injection hgm with hn hrest
  subst hn
  have hdm : isDir fsm destPath = true := by
    rw [mkdirp_isDir hm destPath, hdir]
    rfl
  have hpe : pexists fsm destPath = true := by
    unfold pexists
    rw [hdm]
    exact Bool.or_true _
  rw [if_pos hpe] at hr
  obtain ⟨_, hfsr⟩ := rmtreeOp_some hr
  constructor
  · intro r
    have hassoc : (vmPath ++ [name']) ++ r = vmPath ++ name' :: r := by simp
    have hsrc : fileAt fsr ((vmPath ++ [name']) ++ r) = fileAt fs (vmPath ++ name' :: r) := by
      rw [hassoc, hfsr, removeTree_fileAt_out (isPre_dest_vm _), mkdirp_fileAt hm]
    have hdst : fileAt fsr (destPath ++ r) = none := by
      rw [hfsr]
      exact removeTree_fileAt_in (isPre_append destPath r)
    rw [copyTree_fileAt_dst hc r, hsrc, hdst]
    cases fileAt fs (vmPath ++ name' :: r) <;> rfl
  · exact copyTree_isDir_dst dest_ne_nil hc

/-- C4 witness: with an old file in the existing destination directory and a
freshly extracted model, the install step replaces the destination: the new
file is present and the old one is gone. -/
theorem c4_full_overwrite_witness :
    isDir fsD destPath = true ∧ stepInstall fsD = .ok (stepInstall fsD).state ∧
      globVoskModel fsD = ["vosk-model-x"] ∧
      fileAt (stepInstall fsD).state (destPath ++ ["f"]) =
        fileAt fsD (vmPath ++ "vosk-model-x" :: ["f"]) ∧
      fileAt (stepInstall fsD).state (destPath ++ ["old"]) =
        fileAt fsD (vmPath ++ "vosk-model-x" :: ["old"]) := by
  refine ⟨by decide, by decide, by decide, ?_, ?_⟩
  · exact (c4_full_overwrite fsD (stepInstall fsD).state "vosk-model-x" []
      (by decide) (by decide) (by decide)).1 ["f"]
  · exact (c4_full_overwrite fsD (stepInstall fsD).state "vosk-model-x" []
      (by decide) (by decide) (by decide)).1 ["old"]

theorem andThenRes_ok {r : Res} {f : FS → Res} {fs' : FS} (h : andThenRes r f = .ok fs') :
    ∃ fs1, r = .ok fs1 ∧ f fs1 = .ok fs' := by
  cases r with
  | ok fs1 => exact ⟨fs1, rfl, h⟩
  | err e fs1 => exact Res.noConfusion h

theorem runMain_ok_steps {w : World} {fs fs' : FS} (h : runMain w fs = .ok fs') :
    ∃ fs1 fs2 fs3, stepDownload w fs = .ok fs1 ∧ stepExtract w fs1 = .ok fs2 ∧
      stepInstall fs2 = .ok fs3 ∧ stepCleanup fs3 = .ok fs' := by
  unfold runMain at h
  obtain ⟨fs1, h1, h⟩ := andThenRes_ok h
  obtain ⟨fs2, h2, h⟩ := andThenRes_ok h
  obtain ⟨fs3, h3, h⟩ := andThenRes_ok h
  exact ⟨fs1, fs2, fs3, h1, h2, h3, h⟩

theorem chain_not_dest_pre {q : FPath} (hq : q ∈ prefixChain androidAssetsPath) :
    isPre destPath q = false := by
  cases hp : isPre destPath q
  · rfl
  · obtain ⟨r, hr⟩ := isPre_iff.mp hp
    exact absurd hr (chain_ne_dest hq r)

/-- C8 counterexample: the destination's parent directories are absent from
the initial filesystem, yet the run succeeds, and afterwards the parent
directory exists — so the program does create the parents itself and a
successful run does not require them to be present beforehand. -/
theorem c8_counterexample :
    isDir emptyFS androidAssetsPath = false ∧ isFile emptyFS androidAssetsPath = false ∧
      (runMain wA emptyFS).isOk = true ∧
      isDir (runMain wA emptyFS).state androidAssetsPath = true := by decide

/-- C8 amended: the fixed relative destination path is resolved against the
invocation directory, and the install step itself creates the destination's
parent chain (`mkdir(parents=True, exist_ok=True)`): after every successful
run, every component of `../android/app/src/main/assets/vosk` is a
directory, whether or not it existed beforehand. -/
theorem c8_mkdir_creates_parents (w : World) (fs fs' : FS) (h : runMain w fs = .ok fs') :
    ∀ q ∈ prefixChain androidAssetsPath, isDir fs' q = true := by
  obtain ⟨fs1, fs2, fs3, h1, h2, h3, h4⟩ := runMain_ok_steps h
  obtain ⟨fsm, name, rest, fsr, hm, hg, hrr, hcp⟩ := stepInstall_ok h3
  intro q hq
  have hdm : isDir fsm q = true := by
    rw [mkdirp_isDir hm q]
    have hmem : decide (q ∈ prefixChain androidAssetsPath) = true := by simpa using hq
    rw [hmem]
    exact Bool.or_true _
  have hdr : isDir fsr q = true := by
    by_cases hpe : pexists fsm destPath = true
    · rw [if_pos hpe] at hrr
      obtain ⟨_, hfsr⟩ := rmtreeOp_some hrr
      rw [hfsr, removeTree_isDir_out (chain_not_dest_pre hq)]
      exact hdm
    · rw [if_neg hpe] at hrr
      injection hrr with hh
      rw [← hh]
      exact hdm
  have hd3 : isDir fs3 q = true := copyTree_isDir_mono hcp hdr
  obtain ⟨fsu, hu, hrv⟩ := stepCleanup_ok h4
  obtain ⟨_, hfs4⟩ := rmtreeOp_some hrv
  rw [hfs4, removeTree_isDir_out (chain_not_vm hq), unlink_isDir hu]
  exact hd3

/-- C8 amended witness: starting from the empty filesystem, the parent chain
exists after the successful run. -/
theorem c8_mkdir_creates_parents_witness :
    runMain wA emptyFS = .ok eA1 ∧ isDir eA1 androidAssetsPath = true :=
  ⟨by decide, c8_mkdir_creates_parents wA emptyFS eA1 (by decide)
    androidAssetsPath (by decide)⟩

/-- C1: when the download, extraction, install, and cleanup steps all
succeed, the final state's destination directory exists and contains every
file of the selected extracted entry (the first `vosk-model-*` match of the
post-extraction listing), and neither the archive file `vosk-model.zip` nor
anything at or below the extraction directory `vosk_model` survives. -/
theorem c1_success_installs (w : World) (fs fs1 fs2 fs3 fs4 : FS)
    (h1 : stepDownload w fs = .ok fs1) (h2 : stepExtract w fs1 = .ok fs2)
    (h3 : stepInstall fs2 = .ok fs3) (h4 : stepCleanup fs3 = .ok fs4) :
    runMain w fs = .ok fs4 ∧
    (∀ name rest, globVoskModel fs2 = name :: rest →
      ∀ r c, fileAt fs2 (vmPath ++ name :: r) = some c →
        fileAt fs4 (destPath ++ r) = some c) ∧
    isDir fs4 destPath = true ∧
    fileAt fs4 modelZipPath = none ∧
    (∀ p, isPre vmPath p = true → fileAt fs4 p = none ∧ isDir fs4 p = false) := by
  obtain ⟨fsm, name', rest', fsr, hm, hg', hr, hcp⟩ := stepInstall_ok h3
  obtain ⟨fsu, hu, hrv⟩ := stepCleanup_ok h4
  obtain ⟨_, hfs4⟩ := rmtreeOp_some hrv
  have hrun : runMain w fs = .ok fs4 := by rw [runMain_steps h1 h2 h3]; exact h4
  refine ⟨hrun, ?_, ?_, ?_, ?_⟩
  · intro name rest hg r c hsome
    have hgm := glob_mkdirp hm
    rw [hg, hg'] at hgm
    injection hgm with hn hrest2
    subst hn
    have hassoc : (vmPath ++ [name']) ++ r = vmPath ++ name' :: r := by simp
    have hfsr : fileAt fsr ((vmPath ++ [name']) ++ r) = some c := by
      by_cases hpe : pexists fsm destPath = true
      · rw [if_pos hpe] at hr
        obtain ⟨_, hfr⟩ := rmtreeOp_some hr
        rw [hassoc, hfr, removeTree_fileAt_out (isPre_dest_vm _), mkdirp_fileAt hm]
        exact hsome
      · rw [if_neg hpe] at hr
        injection hr with hh
        rw [hassoc, ← hh, mkdirp_fileAt hm]
        exact hsome
    have h3f : fileAt fs3 (destPath ++ r) = some c := by
      rw [copyTree_fileAt_dst hcp r, hfsr]
    have h4f : fileAt fsu (destPath ++ r) = some c := by
      rw [unlink_fileAt_ne hu (dest_ne_zip r)]
      exact h3f
    rw [hfs4, removeTree_fileAt_out (isPre_vm_dest r)]
    exact h4f
  · have hd3 := copyTree_isDir_dst dest_ne_nil hcp
    rw [hfs4, removeTree_isDir_out (by decide), unlink_isDir hu]
    exact hd3
  · rw [hfs4, removeTree_fileAt_out isPre_vm_zip]
    exact unlink_fileAt_self hu
  · intro p hp
    rw [hfs4]
    exact ⟨removeTree_fileAt_in hp, removeTree_isDir_in hp⟩

/-- C1 witness: the sample run installs the extracted `conf` file at the
destination, and both temporary artifacts are gone at the end. -/
theorem c1_success_installs_witness :
    stepDownload wA emptyFS = .ok dA1 ∧ stepExtract wA dA1 = .ok dA2 ∧
      stepInstall dA2 = .ok dA3 ∧ stepCleanup dA3 = .ok dA4 ∧
      globVoskModel dA2 = ["vosk-model-small"] ∧
      fileAt dA2 (vmPath ++ "vosk-model-small" :: ["conf"]) = some [1, 2] ∧
      fileAt dA4 (destPath ++ ["conf"]) = some [1, 2] ∧
      isDir dA4 destPath = true ∧ fileAt dA4 modelZipPath = none := by
  have hc := c1_success_installs wA emptyFS dA1 dA2 dA3 dA4
    (by decide) (by decide) (by decide) (by decide)
  refine ⟨by decide, by decide, by decide, by decide, by decide, by decide, ?_, hc.2.2.1, hc.2.2.2.1⟩
  exact hc.2.1 "vosk-model-small" [] (by decide) ["conf"] [1, 2] (by decide)

/-! ### Error-state lemmas for the individual steps -/

theorem stepDownload_err {w : World} {fs fs' : FS} {e : MErr}
    (h : stepDownload w fs = .err e fs') : fs' = fs := by
  unfold stepDownload at h
  by_cases h1 : isErrorStatus w.status = true
  · rw [if_pos h1] at h
    injection h with h2 h3
    exact h3.symm
  · rw [if_neg h1] at h
    unfold writeFileOp at h
    by_cases h2 : isDir fs modelZipPath = true
    · rw [if_pos h2] at h
      injection h with h3 h4
      exact h4.symm
    · rw [if_neg h2] at h
      exact Res.noConfusion h

theorem stepExtract_err_zip {w : World} {fs fs' : FS} {e : MErr}
    (h : stepExtract w fs = .err e fs') :
    fileAt fs' modelZipPath = fileAt fs modelZipPath := by
  unfold stepExtract at h
  cases hc : fileAt fs modelZipPath with
  | none =>
    rw [hc] at h
    injection h with h2 h3
    rw [← h3]
    exact hc
  | some content =>
    rw [hc] at h
    have h5 : (match w.decodeZip content with
        | none => Res.err MErr.badArchive fs
        | some z => extractAll fs z.members) = Res.err e fs' := h
    cases hz : w.decodeZip content with
    | none =>
      rw [hz] at h5
      injection h5 with h2 h3
      rw [← h3]
      exact hc
    | some z =>
      rw [hz] at h5
      have h6 : extractAll fs z.members = Res.err e fs' := h5
      have hp := extractAll_state_pres z.members fs (p := modelZipPath) isPre_vm_zip
      rw [h6] at hp
      exact hp.1.trans hc

theorem vm_cone_not_in_chain {p : FPath} (hp : isPre vmPath p = true) :
    decide (p ∈ prefixChain androidAssetsPath) = false := by
  simp only [decide_eq_false_iff_not]
  intro hmem
  rw [chain_not_vm hmem] at hp
  exact absurd hp (by simp)

theorem vm_cone_not_dest_pre {p : FPath} (hp : isPre vmPath p = true) :
    isPre destPath p = false := by
  obtain ⟨x, hx⟩ := isPre_iff.mp hp
  subst hx
  exact isPre_dest_vm x

theorem stepInstall_err_pres {fs fs' : FS} {e : MErr} (h : stepInstall fs = .err e fs') :
    fileAt fs' modelZipPath = fileAt fs modelZipPath ∧
    (∀ p, isPre vmPath p = true →
      fileAt fs' p = fileAt fs p ∧ isDir fs' p = isDir fs p) := by
  unfold stepInstall at h
  cases hm : mkdirp fs androidAssetsPath with
  | none =>
    rw [hm] at h
    injection h with h2 h3
    rw [← h3]
    exact ⟨rfl, fun p hp => ⟨rfl, rfl⟩⟩
  | some fsm =>
    rw [hm] at h
    have hmf : ∀ q, fileAt fsm q = fileAt fs q := mkdirp_fileAt hm
    have hmd : ∀ p, isPre vmPath p = true → isDir fsm p = isDir fs p := by
      intro p hp
      rw [mkdirp_isDir hm p, vm_cone_not_in_chain hp, Bool.or_false]
    have h5 : (match globVoskModel fsm with
        | [] => Res.err MErr.indexError fsm
        | name :: _ => installFrom fsm name) = Res.err e fs' := h
    cases hg : globVoskModel fsm with
    | nil =>
      rw [hg] at h5
      injection h5 with h2 h3
      rw [← h3]
      exact ⟨hmf _, fun p hp => ⟨hmf p, hmd p hp⟩⟩
    | cons name rest =>
      rw [hg] at h5
      have h6 : installFrom fsm name = Res.err e fs' := h5
      unfold installFrom at h6
      cases hr : (if pexists fsm destPath then rmtreeOp fsm destPath else some fsm) with
      | none =>
        rw [hr] at h6
        injection h6 with h2 h3
        rw [← h3]
        exact ⟨hmf _, fun p hp => ⟨hmf p, hmd p hp⟩⟩
      | some fsr =>
        rw [hr] at h6
        have hfr : fileAt fsr modelZipPath = fileAt fsm modelZipPath ∧
            (∀ p, isPre vmPath p = true →
              fileAt fsr p = fileAt fsm p ∧ isDir fsr p = isDir fsm p) := by
          by_cases hpe : pexists fsm destPath = true
          · rw [if_pos hpe] at hr
            obtain ⟨_, hf⟩ := rmtreeOp_some hr
            rw [hf]
            exact ⟨removeTree_fileAt_out (by decide), fun p hp =>
              ⟨removeTree_fileAt_out (vm_cone_not_dest_pre hp),
               removeTree_isDir_out (vm_cone_not_dest_pre hp)⟩⟩
          · rw [if_neg hpe] at hr
            injection hr with hh
            rw [← hh]
            exact ⟨rfl, fun p hp => ⟨rfl, rfl⟩⟩
        have h7 : (match copyTreeOp fsr (vmPath ++ [name]) destPath with
            | none => Res.err MErr.copyFailed fsr
            | some fsy => Res.ok fsy) = Res.err e fs' := h6
        cases hcp : copyTreeOp fsr (vmPath ++ [name]) destPath with
        | some fsy =>
          rw [hcp] at h7
          exact Res.noConfusion h7
        | none =>
          rw [hcp] at h7
          injection h7 with h2 h3
          rw [← h3]
          exact ⟨hfr.1.trans (hmf _), fun p hp =>
            ⟨(hfr.2 p hp).1.trans (hmf p), (hfr.2 p hp).2.trans (hmd p hp)⟩⟩

/-- C6: the deletion of the temporary artifacts happens only after a
successful install.  On the success path the final state has neither the
archive file nor the extraction directory.  If the download aborts, the
state is untouched; if the extraction aborts, the downloaded archive file is
still on disk; if the install aborts, the archive file and the whole
extraction tree are exactly as the extraction left them — no cleanup runs on
any abort path. -/
theorem c6_cleanup_only_after_install (w : World) (fs : FS) :
    (∀ fs1 fs2 fs3 fs4, stepDownload w fs = .ok fs1 → stepExtract w fs1 = .ok fs2 →
      stepInstall fs2 = .ok fs3 → stepCleanup fs3 = .ok fs4 →
      runMain w fs = .ok fs4 ∧ fileAt fs4 modelZipPath = none ∧ isDir fs4 vmPath = false) ∧
    (∀ e fs', stepDownload w fs = .err e fs' → runMain w fs = .err e fs' ∧ fs' = fs) ∧
    (∀ fs1 e fs', stepDownload w fs = .ok fs1 → stepExtract w fs1 = .err e fs' →
      runMain w fs = .err e fs' ∧ fileAt fs' modelZipPath = some (bodyOf w)) ∧
    (∀ fs1 fs2 e fs', stepDownload w fs = .ok fs1 → stepExtract w fs1 = .ok fs2 →
      stepInstall fs2 = .err e fs' →
      runMain w fs = .err e fs' ∧ fileAt fs' modelZipPath = some (bodyOf w) ∧
      (∀ p, isPre vmPath p = true →
        fileAt fs' p = fileAt fs2 p ∧ isDir fs' p = isDir fs2 p)) := by
  have zip_after_download : ∀ {fs1 : FS}, stepDownload w fs = .ok fs1 →
      fileAt fs1 modelZipPath = some (bodyOf w) := by
    intro fs1 h1
    rw [(stepDownload_ok h1).2.2]
    exact fileAt_setFile_self fs modelZipPath (bodyOf w)
  refine ⟨?_, ?_, ?_, ?_⟩
  · intro fs1 fs2 fs3 fs4 h1 h2 h3 h4
    obtain ⟨fsu, hu, hrv⟩ := stepCleanup_ok h4
    obtain ⟨_, hfs4⟩ := rmtreeOp_some hrv
    refine ⟨by rw [runMain_steps h1 h2 h3]; exact h4, ?_, ?_⟩
    · rw [hfs4, removeTree_fileAt_out isPre_vm_zip]
      exact unlink_fileAt_self hu
    · rw [hfs4]
      exact removeTree_isDir_in (isPre_refl vmPath)
  · intro e fs' h1
    exact ⟨runMain_err_download h1, stepDownload_err h1⟩
  · intro fs1 e fs' h1 h2
    refine ⟨runMain_err_extract h1 h2, ?_⟩
    rw [stepExtract_err_zip h2]
    exact zip_after_download h1
  · intro fs1 fs2 e fs' h1 h2 h3
    obtain ⟨content, z, hc, hz, hext⟩ := stepExtract_ok h2
    have hzip2 : fileAt fs2 modelZipPath = some (bodyOf w) := by
      have hp := extractAll_state_pres z.members fs1 (p := modelZipPath) isPre_vm_zip
      rw [hext] at hp
      have h8 : fileAt fs2 modelZipPath = fileAt fs1 modelZipPath := hp.1
      rw [h8]
      exact zip_after_download h1
    have hpres := stepInstall_err_pres h3
    exact ⟨runMain_err_install h1 h2 h3, by rw [hpres.1, hzip2], hpres.2⟩

/-- C6 witness: with an archive that yields no matching entry, the install
step aborts, the whole run aborts the same way, and the downloaded archive
file is still present in the abort state — no cleanup ran. -/
theorem c6_cleanup_only_after_install_witness :
    stepDownload wC emptyFS = .ok dC1 ∧ stepExtract wC dC1 = .ok dC2 ∧
      stepInstall dC2 = .err .indexError dC3 ∧
      runMain wC emptyFS = .err .indexError dC3 ∧
      fileAt dC3 modelZipPath = some (bodyOf wC) := by
  have hp := (c6_cleanup_only_after_install wC emptyFS).2.2.2 dC1 dC2 .indexError dC3
    (by decide) (by decide) (by decide)
  exact ⟨by decide, by decide, by decide, hp.1, hp.2.1⟩

/-! ### Agreement of two filesystems on the extraction cone

Extraction touches only the `vosk_model` cone, and the later selection and
copy read only that cone.  Two states that agree there (lookups, directory
presence, and the listing order of the immediate children) keep agreeing
through extraction; extraction into a state whose `vosk_model` cone is empty
therefore behaves like extraction into the empty filesystem. -/

def VMAgree (fsa fsb : FS) : Prop :=
  (∀ p, isPre vmPath p = true → fileAt fsa p = fileAt fsb p) ∧
  (∀ p, isPre vmPath p = true → isDir fsa p = isDir fsb p) ∧
  fsa.dirs.filterMap (childOf vmPath) = fsb.dirs.filterMap (childOf vmPath) ∧
  (fsa.files.map Prod.fst).filterMap (childOf vmPath) =
    (fsb.files.map Prod.fst).filterMap (childOf vmPath)

theorem vmagree_glob {fsa fsb : FS} (h : VMAgree fsa fsb) :
    globVoskModel fsa = globVoskModel fsb := by
  unfold globVoskModel childNames
  rw [h.2.2.1, h.2.2.2]

theorem vmagree_isFile {fsa fsb : FS} (h : VMAgree fsa fsb) {p : FPath}
    (hp : isPre vmPath p = true) : isFile fsa p = isFile fsb p := by
  unfold isFile
  rw [h.1 p hp]

theorem anyCongr {α : Type} {l : List α} {f g : α → Bool} (h : ∀ a ∈ l, f a = g a) :
    l.any f = l.any g := by
  induction l with
  | nil => rfl
  | cons a rest ih =>
    simp only [List.any_cons, h a (by simp), ih fun x hx => h x (by simp [hx])]

theorem vmagree_mem_dirs {fsa fsb : FS} (h : VMAgree fsa fsb) {d : FPath}
    (hd : isPre vmPath d = true) : (d ∈ fsa.dirs) ↔ (d ∈ fsb.dirs) := by
  have h2 := h.2.1 d hd
  unfold isDir at h2
  exact decide_eq_decide.mp h2

theorem vmagree_setFile {fsa fsb : FS} (h : VMAgree fsa fsb) (p : FPath) (c : List Byte) :
    VMAgree (setFile fsa p c) (setFile fsb p c) := by
  refine ⟨?_, ?_, ?_, ?_⟩
  · intro q hq
    by_cases hqp : q = p
    · subst hqp
      rw [fileAt_setFile_self, fileAt_setFile_self]
    · rw [fileAt_setFile_ne _ _ _ hqp, fileAt_setFile_ne _ _ _ hqp]
      exact h.1 q hq
  · intro q hq
    rw [isDir_setFile, isDir_setFile]
    exact h.2.1 q hq
  · exact h.2.2.1
  · simp only [setFile, List.map_cons, List.filterMap_cons]
    rw [h.2.2.2]

theorem vmagree_addDir {fsa fsb : FS} (h : VMAgree fsa fsb) {d : FPath}
    (hd : isPre vmPath d = true) : VMAgree (addDir fsa d) (addDir fsb d) := by
  have hmem := vmagree_mem_dirs h hd
  refine ⟨?_, ?_, ?_, ?_⟩
  · intro q hq
    unfold fileAt
    rw [files_addDir, files_addDir]
    exact h.1 q hq
  · intro q hq
    rw [isDir_addDir, isDir_addDir, h.2.1 q hq]
  · unfold addDir
    by_cases hda : d ∈ fsa.dirs
    · rw [if_pos hda, if_pos (hmem.mp hda)]
      exact h.2.2.1
    · rw [if_neg hda, if_neg (fun hb => hda (hmem.mpr hb))]
      simp only [List.filterMap_append]
      rw [h.2.2.1]
  · unfold addDir
    by_cases hda : d ∈ fsa.dirs
    · rw [if_pos hda, if_pos (hmem.mp hda)]
      exact h.2.2.2
    · rw [if_neg hda, if_neg (fun hb => hda (hmem.mpr hb))]
      exact h.2.2.2

theorem vmagree_foldl_addDir {fsa fsb : FS} (h : VMAgree fsa fsb) {ds : List FPath}
    (hds : ∀ d ∈ ds, isPre vmPath d = true) :
    VMAgree (ds.foldl addDir fsa) (ds.foldl addDir fsb) := by
  induction ds generalizing fsa fsb with
  | nil => exact h
  | cons d rest ih =>
    rw [List.foldl_cons, List.foldl_cons]
    exact ih (vmagree_addDir h (hds d (by simp))) fun x hx => hds x (by simp [hx])

theorem vmagree_extractMember {fsa fsb : FS} (h : VMAgree fsa fsb) (m : FPath × List Byte) :
    (extractMember fsa m = none ↔ extractMember fsb m = none) ∧
    (∀ fa fb, extractMember fsa m = some fa → extractMember fsb m = some fb →
      VMAgree fa fb) := by
  have hguard : ((strictChain (vmPath ++ m.1)).any fun q => isFile fsa q) =
      ((strictChain (vmPath ++ m.1)).any fun q => isFile fsb q) :=
    anyCongr fun q hq => vmagree_isFile h (strictChain_vm_pre hq)
  have hdir : isDir fsa (vmPath ++ m.1) = isDir fsb (vmPath ++ m.1) :=
    h.2.1 _ (isPre_append _ _)
  by_cases h1 : ((strictChain (vmPath ++ m.1)).any fun q => isFile fsa q) = true
  · have hb1 : ((strictChain (vmPath ++ m.1)).any fun q => isFile fsb q) = true := by
      rw [← hguard]; exact h1
    have ea : extractMember fsa m = none := by
      unfold extractMember; rw [if_pos h1]
    have eb : extractMember fsb m = none := by
      unfold extractMember; rw [if_pos hb1]
    rw [ea, eb]
    exact ⟨Iff.rfl, fun fa fb hfa _ => absurd hfa (by simp)⟩
  · have hb1 : ¬((strictChain (vmPath ++ m.1)).any fun q => isFile fsb q) = true := by
      rw [← hguard]; exact h1
    by_cases h2 : isDir fsa (vmPath ++ m.1) = true
    · have hb2 : isDir fsb (vmPath ++ m.1) = true := by rw [← hdir]; exact h2
      have ea : extractMember fsa m = none := by
        unfold extractMember; rw [if_neg h1, if_pos h2]
      have eb : extractMember fsb m = none := by
        unfold extractMember; rw [if_neg hb1, if_pos hb2]
      rw [ea, eb]
      exact ⟨Iff.rfl, fun fa fb hfa _ => absurd hfa (by simp)⟩
    · have hb2 : ¬isDir fsb (vmPath ++ m.1) = true := by rw [← hdir]; exact h2
      have ea : extractMember fsa m = some
          (setFile ((strictChain (vmPath ++ m.1)).foldl addDir fsa) (vmPath ++ m.1) m.2) := by
        unfold extractMember; rw [if_neg h1, if_neg h2]
      have eb : extractMember fsb m = some
          (setFile ((strictChain (vmPath ++ m.1)).foldl addDir fsb) (vmPath ++ m.1) m.2) := by
        unfold extractMember; rw [if_neg hb1, if_neg hb2]
      rw [ea, eb]
      refine ⟨by simp, ?_⟩
      intro fa fb hfa hfb
      injection hfa with hfa2
      injection hfb with hfb2
      rw [← hfa2, ← hfb2]
      exact vmagree_setFile
        (vmagree_foldl_addDir h fun d hd => strictChain_vm_pre hd) _ _

theorem vmagree_extractAll (ms : List (FPath × List Byte)) {fsa fsb : FS}
    (h : VMAgree fsa fsb) :
    ((extractAll fsa ms).isOk = (extractAll fsb ms).isOk) ∧
    (∀ fa fb, extractAll fsa ms = .ok fa → extractAll fsb ms = .ok fb →
      VMAgree fa fb) := by
  induction ms generalizing fsa fsb with
  | nil =>
    refine ⟨rfl, ?_⟩
    intro fa fb ha hb
    injection ha with ha2
    injection hb with hb2
    rw [← ha2, ← hb2]
    exact h
  | cons m rest ih =>
    have hm := vmagree_extractMember h m
    cases hma : extractMember fsa m with
    | none =>
      have hmb : extractMember fsb m = none := hm.1.mp hma
      constructor
      · simp only [extractAll, hma, hmb, Res.isOk]
      · intro fa fb hfa _
        simp only [extractAll, hma] at hfa
        exact Res.noConfusion hfa
    | some fa1 =>
      cases hmb2 : extractMember fsb m with
      | none =>
        rw [hm.1.mpr hmb2] at hma
        exact absurd hma (by simp)
      | some fb1 =>
        have hab : VMAgree fa1 fb1 := hm.2 fa1 fb1 hma hmb2
        have iha := ih hab
        constructor
        · simp only [extractAll, hma, hmb2]
          exact iha.1
        · intro fa fb hfa hfb
          simp only [extractAll, hma, hmb2] at hfa hfb
          exact iha.2 fa fb hfa hfb

theorem fileAt_empty (p : FPath) : fileAt emptyFS p = none := rfl

theorem isDir_empty (p : FPath) : isDir emptyFS p = false := by
  simp [isDir, emptyFS]

theorem vmagree_of_empty {fs : FS}
    (h : ∀ p, isPre vmPath p = true → fileAt fs p = none ∧ isDir fs p = false) :
    VMAgree fs emptyFS := by
  refine ⟨?_, ?_, ?_, ?_⟩
  · intro p hp
    rw [(h p hp).1, fileAt_empty]
  · intro p hp
    rw [(h p hp).2, isDir_empty]
  · show fs.dirs.filterMap (childOf vmPath) = ([] : List FPath).filterMap (childOf vmPath)
    rw [List.filterMap_nil]
    apply List.filterMap_eq_nil_iff.mpr
    intro d hd
    cases hc : childOf vmPath d with
    | none => rfl
    | some n =>
      have hdp : d = vmPath ++ [n] := childOf_eq_some.mp hc
      have hdir : isDir fs d = false := (h d (by rw [hdp]; exact isPre_append _ _)).2
      unfold isDir at hdir
      simp only [decide_eq_false_iff_not] at hdir
      exact absurd hd hdir
  · show (fs.files.map Prod.fst).filterMap (childOf vmPath) =
      (([] : List (FPath × List Byte)).map Prod.fst).filterMap (childOf vmPath)
    rw [List.map_nil, List.filterMap_nil]
    apply List.filterMap_eq_nil_iff.mpr
    intro q hq
    obtain ⟨e, he, heq⟩ := List.mem_map.mp hq
    cases hc : childOf vmPath q with
    | none => rfl
    | some n =>
      have hdp : q = vmPath ++ [n] := childOf_eq_some.mp hc
      have hfile : fileAt fs q = none := (h q (by rw [hdp]; exact isPre_append _ _)).1
      have hsome := lookupF_isSome_of_mem he
      rw [heq] at hsome
      unfold fileAt at hfile
      rw [hfile] at hsome
      exact Bool.noConfusion hsome

/-- Master lemma: from an initial state whose `vosk_model` cone is empty and
whose destination is either an existing directory or file-free, a successful
run leaves at the destination exactly the content determined by the archive
alone (`installedContent`), empties the `vosk_model` cone again, and leaves
the destination directory in place. -/
theorem run_dest_cone {w : World} {fs fs' : FS}
    (hvm : ∀ p, isPre vmPath p = true → fileAt fs p = none ∧ isDir fs p = false)
    (hdest : isDir fs destPath = true ∨ ∀ r, fileAt fs (destPath ++ r) = none)
    (hrun : runMain w fs = .ok fs') :
    (∀ r, fileAt fs' (destPath ++ r) = installedContent w r) ∧
    (∀ p, isPre vmPath p = true → fileAt fs' p = none ∧ isDir fs' p = false) ∧
    isDir fs' destPath = true := by
  obtain ⟨fs1, fs2, fs3, h1, h2, h3, h4⟩ := runMain_ok_steps hrun
  obtain ⟨hstat, hzdir, hfs1⟩ := stepDownload_ok h1
  obtain ⟨content, z, hc, hz, hext⟩ := stepExtract_ok h2
  obtain ⟨fsm, name, rest, fsr, hm, hg, hr, hcp⟩ := stepInstall_ok h3
  obtain ⟨fsu, hu, hrv⟩ := stepCleanup_ok h4
  obtain ⟨_, hfs4⟩ := rmtreeOp_some hrv
  have hcontent : content = bodyOf w := by
    rw [hfs1, fileAt_setFile_self] at hc
    injection hc with hc2
    exact hc2.symm
  have hvm1 : ∀ p, isPre vmPath p = true → fileAt fs1 p = none ∧ isDir fs1 p = false := by
    intro p hp
    have hne : p ≠ modelZipPath := by
      intro hpe
      rw [hpe, isPre_vm_zip] at hp
      exact Bool.noConfusion hp
    rw [hfs1]
    exact ⟨by rw [fileAt_setFile_ne _ _ _ hne]; exact (hvm p hp).1,
      by rw [isDir_setFile]; exact (hvm p hp).2⟩
  have hagree1 : VMAgree fs1 emptyFS := vmagree_of_empty hvm1
  have hsim := vmagree_extractAll z.members hagree1
  have hok : (extractAll emptyFS z.members).isOk = true := by
    rw [← hsim.1, hext]
    rfl
  cases hfse : extractAll emptyFS z.members with
  | err e fse =>
    rw [hfse] at hok
    exact Bool.noConfusion hok
  | ok fse =>
    have hagree2 : VMAgree fs2 fse := hsim.2 fs2 fse hext hfse
    have hglob2 : globVoskModel fsm = globVoskModel fse := by
      rw [glob_mkdirp hm]
      exact vmagree_glob hagree2
    have hge : globVoskModel fse = name :: rest := hglob2.symm.trans hg
    have hinst : installSource w = some (name, fse) := by
      have e1 : installSource w = (match extractAll emptyFS z.members with
          | .err _ _ => none
          | .ok fse2 => match globVoskModel fse2 with
            | [] => none
            | n :: _ => some (n, fse2)) := by
        unfold installSource
        rw [← hcontent, hz]
      rw [e1, hfse]
      show (match globVoskModel fse with
        | [] => none
        | n :: _ => some (n, fse)) = some (name, fse)
      rw [hge]
    -- the vosk_model cone survives unchanged from fs2 into fsr
    have hfsr_cone : ∀ p, isPre vmPath p = true → fileAt fsr p = fileAt fs2 p := by
      intro p hp
      by_cases hpe : pexists fsm destPath = true
      · rw [if_pos hpe] at hr
        obtain ⟨_, hfr⟩ := rmtreeOp_some hr
        rw [hfr, removeTree_fileAt_out (vm_cone_not_dest_pre hp), mkdirp_fileAt hm]
      · rw [if_neg hpe] at hr
        injection hr with hh
        rw [← hh, mkdirp_fileAt hm]
    -- the destination cone of fsr is empty
    have hfsr_dest : ∀ r, fileAt fsr (destPath ++ r) = none := by
      intro r
      by_cases hpe : pexists fsm destPath = true
      · rw [if_pos hpe] at hr
        obtain ⟨_, hfr⟩ := rmtreeOp_some hr
        rw [hfr]
        exact removeTree_fileAt_in (isPre_append destPath r)
      · rw [if_neg hpe] at hr
        injection hr with hh
        have hnofiles : ∀ r2, fileAt fs (destPath ++ r2) = none := by
          rcases hdest with hdd | hdd
          · exfalso
            apply hpe
            have hd1 : isDir fs1 destPath = isDir fs destPath := by
              rw [hfs1]; rfl
            have hd2 := extractAll_state_pres z.members fs1 (p := destPath)
              (by simpa using isPre_vm_dest [])
            rw [hext] at hd2
            have hd2b : isDir fs2 destPath = isDir fs1 destPath := hd2.2
            have hdm : isDir fsm destPath = true := by
              rw [mkdirp_isDir hm destPath, hd2b, hd1, hdd]
              rfl
            unfold pexists
            rw [hdm]
            exact Bool.or_true _
          · exact hdd
        have hp1 : fileAt fs1 (destPath ++ r) = none := by
          rw [hfs1, fileAt_setFile_ne _ _ _ (dest_ne_zip r)]
          exact hnofiles r
        have hp2 := extractAll_state_pres z.members fs1 (isPre_vm_dest r)
        rw [hext] at hp2
        have hp2b : fileAt fs2 (destPath ++ r) = fileAt fs1 (destPath ++ r) := hp2.1
        rw [← hh, mkdirp_fileAt hm, hp2b]
        exact hp1
    refine ⟨?_, ?_, ?_⟩
    · intro r
      have hassoc : (vmPath ++ [name]) ++ r = vmPath ++ name :: r := by simp
      have hsrc : fileAt fsr ((vmPath ++ [name]) ++ r) = fileAt fse (vmPath ++ name :: r) := by
        rw [hassoc, hfsr_cone _ (isPre_append vmPath (name :: r))]
        exact hagree2.1 _ (isPre_append vmPath (name :: r))
      have h3f : fileAt fs3 (destPath ++ r) = fileAt fse (vmPath ++ name :: r) := by
        rw [copyTree_fileAt_dst hcp r, hsrc, hfsr_dest r]
        cases fileAt fse (vmPath ++ name :: r) <;> rfl
      have hic : installedContent w r = fileAt fse (vmPath ++ name :: r) := by
        unfold installedContent
        rw [hinst]
      rw [hic, hfs4, removeTree_fileAt_out (isPre_vm_dest r),
        unlink_fileAt_ne hu (dest_ne_zip r)]
      exact h3f
    · intro p hp
      rw [hfs4]
      exact ⟨removeTree_fileAt_in hp, removeTree_isDir_in hp⟩
    · have hd3 := copyTree_isDir_dst dest_ne_nil hcp
      rw [hfs4, removeTree_isDir_out (by decide), unlink_isDir hu]
      exact hd3

/-- C3 counterexample: from a filesystem holding a stale matching entry
`vosk-model-aaa` inside a leftover `vosk_model` directory, two successive
runs on the same archive both succeed but end with different destination
contents — the first run installs the stale entry, the second installs the
archive's `vosk-model-bbb`, so the end state of two runs differs from the end
state of one run. -/
theorem c3_counterexample :
    (runMain wB fsB).isOk = true ∧ (runMain wB (runMain wB fsB).state).isOk = true ∧
      fileAt (runMain wB (runMain wB fsB).state).state (destPath ++ ["f"]) ≠
        fileAt (runMain wB fsB).state (destPath ++ ["f"]) := by decide

/-- C3 amended: provided the temporary extraction directory `vosk_model`
holds nothing at the start and the destination is an existing directory or
file-free, running the whole procedure twice on the same archive yields a
destination whose files equal those after a single run: the install step
fully replaces the prior destination directory. -/
theorem c3_twice_equals_once (w : World) (fs fsA fsB2 : FS)
    (hvm : ∀ p, isPre vmPath p = true → fileAt fs p = none ∧ isDir fs p = false)
    (hdest : isDir fs destPath = true ∨ ∀ r, fileAt fs (destPath ++ r) = none)
    (h1 : runMain w fs = .ok fsA) (h2 : runMain w fsA = .ok fsB2) :
    ∀ r, fileAt fsB2 (destPath ++ r) = fileAt fsA (destPath ++ r) := by
  have hA := run_dest_cone hvm hdest h1
  have hB := run_dest_cone hA.2.1 (Or.inl hA.2.2) h2
  intro r
  rw [hA.1 r, hB.1 r]

/-- C3 amended witness: from the empty filesystem, two runs of the sample
environment leave the same installed file as one run. -/
theorem c3_twice_equals_once_witness :
    runMain wA emptyFS = .ok eA1 ∧ runMain wA eA1 = .ok eA2 ∧
      fileAt eA2 (destPath ++ ["conf"]) = fileAt eA1 (destPath ++ ["conf"]) := by
  refine ⟨by decide, by decide, ?_⟩
  exact c3_twice_equals_once wA emptyFS eA1 eA2
    (fun p hp => ⟨fileAt_empty p, isDir_empty p⟩)
    (Or.inr fun r => fileAt_empty _)
    (by decide) (by decide) ["conf"]

end Vosk
